import Mathlib

/-!
Verification development for the email ticketing pipeline.

The definitions below are a shallow embedding of `src/python.py`:
pure helpers become Lean functions, the database connection becomes an
explicit state record with pending (uncommitted) and committed rows, and
the POP3 mailbox interaction is modelled by oracles in a configuration
record.  Theorems at the end settle the specification claims.
-/

namespace ETS

/-- Maximum of a list of naturals, `0` for the empty list.  Models
`ISNULL(MAX(tkt_no), 0)` over the `dbo.cms` table. -/
def listMax (l : List Nat) : Nat := l.foldr max 0

theorem listMax_cons (a : Nat) (l : List Nat) : listMax (a :: l) = max a (listMax l) := rfl

theorem le_listMax_of_mem {x : Nat} {l : List Nat} (h : x ∈ l) : x ≤ listMax l := by
  induction l with
  | nil => cases h
  | cons a l ih =>
    rcases List.mem_cons.mp h with h | h
    · subst h; exact Nat.le_max_left _ _
    · exact Nat.le_trans (ih h) (Nat.le_max_right _ _)

/-- `fit(s, n)` from the source: `(s or "")[:n]`, i.e. the first `n`
characters of `s`, with `None` treated as the empty string. -/
def fit (s : Option String) (n : Nat) : String := String.mk ((s.getD "").data.take n)

theorem fit_spec (s : Option String) (n : Nat) :
    (fit s n).data <+: (s.getD "").data ∧ (fit s n).length = min n (s.getD "").length := by
  constructor
  · exact ⟨(s.getD "").data.drop n, List.take_append_drop n (s.getD "").data⟩
  · show ((s.getD "").data.take n).length = min n (s.getD "").data.length
    exact List.length_take n (s.getD "").data

/-- `hasPre needle hay` holds when `needle` is an initial segment of `hay`. -/
def hasPre : List Char → List Char → Bool
  | [], _ => true
  | _ :: _, [] => false
  | a :: as, b :: bs => (a == b) && hasPre as bs

/-- `subtext needle hay`: `needle` occurs contiguously inside `hay`.
Models Python's `needle in hay` substring test. -/
def subtext (n : List Char) : List Char → Bool
  | [] => n.isEmpty
  | b :: bs => hasPre n (b :: bs) || subtext n bs

theorem hasPre_iff (n h : List Char) : hasPre n h = true ↔ ∃ t, h = n ++ t := by
  induction n generalizing h with
  | nil => simp [hasPre]
  | cons a as ih =>
    cases h with
    | nil => simp [hasPre]
    | cons b bs =>
      simp only [hasPre, Bool.and_eq_true, beq_iff_eq, ih, List.cons_append, List.cons.injEq]
      constructor
      · rintro ⟨rfl, t, rfl⟩; exact ⟨t, rfl, rfl⟩
      · rintro ⟨t, rfl, rfl⟩; exact ⟨rfl, t, rfl⟩

theorem subtext_iff (n h : List Char) : subtext n h = true ↔ ∃ l₁ l₂, h = l₁ ++ n ++ l₂ := by
  induction h with
  | nil =>
    simp only [subtext, List.isEmpty_iff]
    constructor
    · rintro rfl; exact ⟨[], [], rfl⟩
    · rintro ⟨l₁, l₂, he⟩
      rcases List.append_eq_nil.mp (List.append_eq_nil.mp he.symm).1 with ⟨-, h2⟩
      exact h2
  | cons b bs ih =>
    simp only [subtext, Bool.or_eq_true, hasPre_iff, ih]
    constructor
    · rintro (⟨t, ht⟩ | ⟨l₁, l₂, he⟩)
      · exact ⟨[], t, by simp [ht]⟩
      · exact ⟨b :: l₁, l₂, by simp [he]⟩
    · rintro ⟨l₁, l₂, he⟩
      cases l₁ with
      | nil => exact Or.inl ⟨l₂, by simpa using he⟩
      | cons c l₁ =>
        simp only [List.cons_append, List.cons.injEq] at he
        exact Or.inr ⟨l₁, l₂, he.2⟩

/-- A contiguous occurrence, the propositional counterpart of `subtext`. -/
def ContainsSub (n h : List Char) : Prop := ∃ l₁ l₂, h = l₁ ++ n ++ l₂

theorem subtext_eq_true_iff (n h : List Char) : subtext n h = true ↔ ContainsSub n h :=
  subtext_iff n h

/- ---------------- Message model ----------------

A parsed MIME message.  `subject` and `sender` are the already decoded
header values (`decode_mime_words` / `parseaddr` are external
collaborators).  `rootCtype`/`rootText` are the content type and decoded
payload of the message object itself (`None` models a decode failure);
`subParts` are the remaining parts that `msg.walk()` yields after the
root, in walk order. -/

structure EmailPart where
  ctype : String
  text : Option String
deriving DecidableEq

structure EmailMsg where
  subject : String
  sender : String
  multipart : Bool
  rootCtype : String
  rootText : Option String
  subParts : List EmailPart
deriving DecidableEq

/-- `msg.walk()`: the message itself first, then its sub-parts. -/
def walk (m : EmailMsg) : List EmailPart := ⟨m.rootCtype, m.rootText⟩ :: m.subParts

/-- The fixed bounce phrases of `is_undelivered`. -/
def needles : List String :=
  ["undelivered", "return to sender", "mail delivery failed",
   "delivery status notification", "mailer-daemon", "bounce"]

/-- `.lower()` on a string (character-wise lower-casing; the fixed
phrases are pure ASCII, for which this matches Python). -/
def pyLower (s : String) : String := String.mk (s.data.map Char.toLower)

/-- `is_undelivered(msg)` from the source: the lower-cased subject, or the
lower-cased decoded text of a `text/plain` or `text/html` part, contains
one of the fixed phrases. -/
def is_undelivered (m : EmailMsg) : Bool :=
  if needles.any (fun n => subtext n.data (pyLower m.subject).data) then true
  else
    (walk m).any (fun p =>
      ((p.ctype == "text/plain") || (p.ctype == "text/html")) &&
      (match p.text with
       | none => false
       | some t => needles.any (fun n => subtext n.data (pyLower t).data)))

/-- `next_ticket_number(cur)` from the source: a serializable locked read
of `ISNULL(MAX(tkt_no), 0)` over the ticket table, plus one.  The table is
abstracted to the list of ticket numbers visible to the transaction. -/
def next_ticket_number (table : List Nat) : Nat := listMax table + 1

/- ---------------- Body selection (`extract_and_save_body`) ---------------- -/

/-- `part.get_content_maintype()`: the content type up to the first
slash (`ctype.split("/")[0]`). -/
def maintype (s : String) : String := String.mk (s.data.takeWhile (fun c => !(c == '/')))

/-- The part-scanning loop of `extract_and_save_body` (source lines
158-178).  The accumulator is the current `body_content`.  An `html` part
that decodes stops the scan with `is_html = True`; an `html` part that
fails to decode resets the accumulator to `None`; every `text/plain` part
overwrites the accumulator with its (possibly failed) decode;
`multipart/*` containers and other content types are skipped. -/
def scanParts : List EmailPart → Option String → Option String × Bool
  | [], body => (body, false)
  | p :: rest, body =>
    if maintype p.ctype == "multipart" then scanParts rest body
    else if p.ctype == "text/html" then
      match p.text with
      | some t => (some t, true)
      | none => scanParts rest none
    else if p.ctype == "text/plain" then scanParts rest p.text
    else scanParts rest body

/-- Body-content selection of `extract_and_save_body`: scan the walk for a
multipart message, otherwise take the message's own decoded payload
(with `is_html` left `False`). -/
def selectBody (m : EmailMsg) : Option String × Bool :=
  if m.multipart then scanParts (walk m) none else (m.rootText, false)

/-- Placeholder substitution and plain-text wrapping of
`extract_and_save_body` (source lines 187-190): an empty or missing
selection becomes `"(No message content)"`, and a non-HTML selection is
wrapped in a minimal HTML document. -/
def renderBody (m : EmailMsg) : String :=
  let s := selectBody m
  let c := if (s.1.getD "") == "" then "(No message content)" else s.1.getD ""
  if s.2 then c else "<html><body><pre>" ++ c ++ "</pre></body></html>"

/-- The first `text/html` part whose payload decodes, and its text. -/
def firstHtml (l : List EmailPart) : Option String :=
  (l.find? (fun p => (p.ctype == "text/html") && p.text.isSome)).bind EmailPart.text

/-- The last part of the scan that assigns `body_content`: a `text/plain`
part, or a `text/html` part whose decode fails. -/
def lastSetter (l : List EmailPart) : Option EmailPart :=
  (l.filter (fun p =>
    (p.ctype == "text/plain") || ((p.ctype == "text/html") && p.text.isNone))).getLast?

theorem getLast?_cons {α : Type} (a : α) (l : List α) :
    (a :: l).getLast? = some ((l.getLast?).getD a) := by
  induction l generalizing a with
  | nil => rfl
  | cons b l ih =>
    rw [List.getLast?_cons_cons, ih b]
    cases hl : l.getLast? <;> simp [List.getLast?_cons_cons, ih, hl]

theorem maintype_ne_html {p : EmailPart} (h : maintype p.ctype = "multipart") :
    (p.ctype == "text/html") = false := by
  cases hc : p.ctype == "text/html"
  · rfl
  · exfalso
    rw [beq_iff_eq] at hc
    rw [hc] at h
    exact absurd h (by decide)

theorem maintype_ne_plain {p : EmailPart} (h : maintype p.ctype = "multipart") :
    (p.ctype == "text/plain") = false := by
  cases hc : p.ctype == "text/plain"
  · rfl
  · exfalso
    rw [beq_iff_eq] at hc
    rw [hc] at h
    exact absurd h (by decide)

/-- Characterisation of the scanning loop: the result is the first
decodable HTML part if one exists, else whatever the last body-setting
part left in the accumulator (the initial accumulator if there is none). -/
theorem scanParts_spec (l : List EmailPart) (acc : Option String) :
    scanParts l acc =
      match firstHtml l with
      | some t => (some t, true)
      | none => (match lastSetter l with | some p => p.text | none => acc, false) := by
  induction l generalizing acc with
  | nil => simp [scanParts, firstHtml, lastSetter]
  | cons p rest ih =>
    by_cases hm : maintype p.ctype = "multipart"
    · have h1 := maintype_ne_html hm
      have h2 := maintype_ne_plain hm
      simp only [scanParts, hm, beq_self_eq_true, if_true, firstHtml, lastSetter,
        List.find?_cons, List.filter_cons, h1, h2, Bool.false_and, Bool.or_self,
        Bool.and_self, if_false, Bool.false_or, Bool.false_eq_true]
      exact ih acc
    · have hm' : (maintype p.ctype == "multipart") = false := by
        cases hmb : maintype p.ctype == "multipart"
        · rfl
        · exact absurd (beq_iff_eq.mp hmb) hm
      by_cases hh : p.ctype = "text/html"
      · cases ht : p.text with
        | some t =>
          simp [scanParts, maintype, hm', hh, ht, firstHtml, lastSetter, List.find?_cons]
        | none =>
          rw [show scanParts (p :: rest) acc = scanParts rest none by
            simp [scanParts, maintype, hm', hh, ht]]
          rw [ih none]
          have hfh : firstHtml (p :: rest) = firstHtml rest := by
            simp [firstHtml, List.find?_cons, hh, ht]
          have hls : lastSetter (p :: rest) =
              some ((lastSetter rest).getD p) := by
            simp only [lastSetter, List.filter_cons, hh, ht, beq_self_eq_true,
              Option.isNone_none, Bool.and_true, Bool.or_true, if_true]
            by_cases hplain : p.ctype == "text/plain" <;>
              exact getLast?_cons p _
          rw [hfh, hls]
          cases hfr : firstHtml rest
          · cases hlr : lastSetter rest <;> simp [hlr, ht]
          · simp
      · by_cases hp : p.ctype = "text/plain"
        · rw [show scanParts (p :: rest) acc = scanParts rest p.text by
            simp [scanParts, maintype, hm', hh, hp]]
          rw [ih p.text]
          have hfh : firstHtml (p :: rest) = firstHtml rest := by
            simp [firstHtml, List.find?_cons, hh]
          have hls : lastSetter (p :: rest) = some ((lastSetter rest).getD p) := by
            simp only [lastSetter, List.filter_cons, hp, beq_self_eq_true,
              Bool.true_or, if_true]
            exact getLast?_cons p _
          rw [hfh, hls]
          cases hfr : firstHtml rest
          · cases hlr : lastSetter rest <;> simp [hlr]
          · simp
        · rw [show scanParts (p :: rest) acc = scanParts rest acc by
            simp [scanParts, hm', hh, hp]]
          rw [ih acc]
          have hfh : firstHtml (p :: rest) = firstHtml rest := by
            simp [firstHtml, List.find?_cons, hh]
          have hls : lastSetter (p :: rest) = lastSetter rest := by
            simp [lastSetter, List.filter_cons, hh, hp]
          rw [hfh, hls]

/- ---------------- CMS persistence (`store_in_cms`, `store_member`,
`store_undelivered_email`) ---------------- -/

/-- The values handed to `store_in_cms` (keyword arguments of the INSERT).
String-typed columns are `Option String` because the source passes
`None` for several of them; dates/timestamps are opaque `Nat` stamps. -/
structure CmsVals where
  tkt_no : Nat
  ffnum : Option String
  Req_Date : Nat
  Category : Option String
  Subject : Option String
  cstatus : Option String
  UpdateDate : Nat
  UpdateBy : Option String
  fwd_to : Option String
  fwd_date : Option Nat
  fwd_remarks : Option String
  fwd_by : Option String
  attachments : Option String
  email : Option String
  TopCategory : Option String
  CorporateDetails : Option String
  urgent : Option String
  Req_By : Option String
  PointsExp : Option String
  tier : Option String
  download_datetime : Nat
  hitit_ref_no : Option String
deriving DecidableEq

/-- A committed `dbo.cms` row, after the per-field `fit` truncation. -/
structure CmsRow where
  tkt_no : Nat
  ffnum : String
  Req_Date : Nat
  Category : String
  Subject : String
  cstatus : String
  UpdateDate : Nat
  UpdateBy : String
  fwd_to : String
  fwd_date : Option Nat
  fwd_remarks : String
  fwd_by : String
  attachments : String
  email : String
  TopCategory : String
  CorporateDetails : String
  urgent : String
  Req_By : String
  PointsExp : String
  tier : String
  download_datetime : Nat
  hitit_ref_no : String
deriving DecidableEq

/-- `store_in_cms(cur, **vals)`: the row inserted into `dbo.cms`, with the
exact per-column `fit` limits of the source. -/
def store_in_cms (v : CmsVals) : CmsRow where
  tkt_no := v.tkt_no
  ffnum := fit v.ffnum 250
  Req_Date := v.Req_Date
  Category := fit v.Category 50
  Subject := fit v.Subject 1600
  cstatus := fit v.cstatus 1
  UpdateDate := v.UpdateDate
  UpdateBy := fit v.UpdateBy 50
  fwd_to := fit v.fwd_to 50
  fwd_date := v.fwd_date
  fwd_remarks := fit v.fwd_remarks 250
  fwd_by := fit v.fwd_by 50
  attachments := fit v.attachments 100
  email := fit v.email 200
  TopCategory := fit v.TopCategory 30
  CorporateDetails := fit v.CorporateDetails 12
  urgent := fit v.urgent 5
  Req_By := fit v.Req_By 25
  PointsExp := fit v.PointsExp 1
  tier := fit v.tier 1
  download_datetime := v.download_datetime
  hitit_ref_no := fit v.hitit_ref_no 50

/-- A row of `dbo.member`. -/
structure MemberRow where
  FFNUM : String
  EMAIL : String
  TITLE : String
  FNAME : String
  LNAME : String
  tier : String
deriving DecidableEq

/-- `store_member`: insert-if-absent into `dbo.member` with the source's
`fit` limits. -/
def store_member (tbl : List MemberRow) (ffnum : String)
    (emailaddr title fname lname tier : Option String) : List MemberRow :=
  if tbl.any (fun r => r.FFNUM == ffnum) then tbl
  else tbl ++ [{ FFNUM := ffnum, EMAIL := fit emailaddr 200, TITLE := fit title 50,
                 FNAME := fit fname 50, LNAME := fit lname 50, tier := fit tier 1 }]

/-- A row of `undelivered_emails` (the received timestamp is opaque). -/
structure UndelivRec where
  sender_email : String
  date_received : Nat
  reason : String
deriving DecidableEq

/-- `store_undelivered_email(cur, sender, reason)`: the inserted row. -/
def store_undelivered_email (sender : String) (now : Nat) (reason : String) : UndelivRec where
  sender_email := fit (some sender) 200
  date_received := now
  reason := fit (some reason) 200

/- ---------------- Database connection state ----------------

The pyodbc connection runs with `autocommit=False`: `cur.execute`d
INSERTs stay pending on the connection until `db.commit()` makes them
durable; `db.rollback()` discards them, and closing the connection
without a commit also discards them. -/

structure DBState where
  cms : List CmsRow
  undelivered : List UndelivRec
  pendingCms : List CmsRow
  pendingUndeliv : List UndelivRec
deriving DecidableEq

/-- `db.commit()`: pending inserts become durable. -/
def DBState.commit (db : DBState) : DBState where
  cms := db.cms ++ db.pendingCms
  undelivered := db.undelivered ++ db.pendingUndeliv
  pendingCms := []
  pendingUndeliv := []

/-- `db.rollback()` (and the implicit rollback when the connection closes
uncommitted): pending inserts are discarded. -/
def DBState.rollback (db : DBState) : DBState where
  cms := db.cms
  undelivered := db.undelivered
  pendingCms := []
  pendingUndeliv := []

/-- A member record as returned by `fetch_member_by_email`. -/
structure MemberInfo where
  ffnum : String
  title : Option String
  fname : Option String
  lname : Option String
  tier : Option String
deriving DecidableEq

/-- Run configuration: external collaborators and failure oracles.
`msgs i` is the parsed message at mailbox index `i`; `uidMap` is the UIDL
index-to-identifier map (`None` for an index with no entry); `memberDir`
is the member table keyed by email; `failTicket i` says whether the
`try` block of the ticket path raises for message `i`; `deleteFails i`
says whether `pop_conn.dele(i)` raises. -/
structure Config where
  msgs : Nat → EmailMsg
  uidMap : Nat → Option String
  memberDir : String → Option MemberInfo
  attachDir : String
  today : Nat
  now : Nat
  failTicket : Nat → Bool
  deleteFails : Nat → Bool

/-- Result of `process_email`: `ok` carries the returned ticket number
(`None` on the bounce path) and the connection state; `err` is a raised
exception, after the `except` clause already rolled the connection back. -/
inductive ProcResult where
  | ok : Option Nat → DBState → ProcResult
  | err : DBState → ProcResult
deriving DecidableEq

/-- `process_email(msg, cur, db)` from the source.  The bounce path
inserts an `undelivered_emails` row and returns without committing.  The
ticket path allocates `next_ticket_number` over the rows visible to the
transaction (committed plus its own pending), inserts the `dbo.cms` row
built from the source's keyword arguments, and commits; any exception in
that `try` block (modelled by the `failTicket` oracle) triggers
`db.rollback()` and re-raises. -/
def process_email (cfg : Config) (i : Nat) (db : DBState) : ProcResult :=
  let m := cfg.msgs i
  if is_undelivered m then
    .ok none { db with
      pendingUndeliv := db.pendingUndeliv ++
        [store_undelivered_email m.sender cfg.now "Undelivered Mail/Return"] }
  else
    if cfg.failTicket i then .err db.rollback
    else
      let mi := cfg.memberDir m.sender
      let ff := mi.map MemberInfo.ffnum
      let tier := match mi with | some r => fit r.tier 1 | none => ""
      let tno := next_ticket_number ((db.cms ++ db.pendingCms).map CmsRow.tkt_no)
      let row := store_in_cms {
        tkt_no := tno
        ffnum := ff
        Req_Date := cfg.today
        Category := some "General"
        Subject := some m.subject
        cstatus := some "N"
        UpdateDate := cfg.today
        UpdateBy := some ""
        fwd_to := none
        fwd_date := none
        fwd_remarks := none
        fwd_by := none
        attachments := some (fit (some (cfg.attachDir ++ "/" ++ toString tno ++ ".html")) 100)
        email := some m.sender
        TopCategory := some ""
        CorporateDetails := none
        urgent := some "No"
        Req_By := some (fit (some (String.mk (m.sender.data.takeWhile (fun c => !(c == '@'))))) 25)
        PointsExp := some ""
        tier := some tier
        download_datetime := cfg.now
        hitit_ref_no := none }
      .ok (some tno) (DBState.commit { db with pendingCms := db.pendingCms ++ [row] })

/-- State of one `main()` run: connection state, the in-memory
`seen` UIDL set, and the mailbox indices deleted so far. -/
structure RunState where
  db : DBState
  seen : List String
  deleted : List Nat
deriving DecidableEq

/-- Python truthiness of the optional UIDL string (`if uid:`). -/
def uidTruthy : Option String → Bool
  | none => false
  | some u => !(u == "")

/-- The per-message body of the loop in `main()` once the dedup gate has
been passed: run `process_email`; on an exception just continue; on
success try `pop_conn.dele(i)` and, when the delete succeeded and the
identifier is known, add it to `seen`. -/
def handleMsg (cfg : Config) (i : Nat) (s : RunState) : RunState :=
  match process_email cfg i s.db with
  | .err db2 => { s with db := db2 }
  | .ok _ db2 =>
    if cfg.deleteFails i then { s with db := db2 }
    else
      { db := db2
        deleted := s.deleted ++ [i]
        seen := if uidTruthy (cfg.uidMap i) then s.seen ++ [(cfg.uidMap i).getD ""] else s.seen }

/-- One iteration of the loop in `main()`: `if uid and uid in seen:
continue`, else handle the message. -/
def stepMsg (cfg : Config) (i : Nat) (s : RunState) : RunState :=
  if uidTruthy (cfg.uidMap i) && s.seen.contains ((cfg.uidMap i).getD "") then s
  else handleMsg cfg i s

/-- The message loop of `main()` over a list of mailbox indices. -/
def runLoop (cfg : Config) (idxs : List Nat) (s : RunState) : RunState :=
  idxs.foldl (fun s i => stepMsg cfg i s) s

/-- A whole `main()` pass over messages `1..count`: run the loop, then
close the connection, which rolls back anything never committed. -/
def runMain (cfg : Config) (count : Nat) (s : RunState) : RunState :=
  let s' := runLoop cfg (List.range' 1 count) s
  { s' with db := s'.db.rollback }

/- ---------------- Concurrent allocation (claim C2) ----------------

Any number of pipeline instances race on one store.  `next_ticket_number`
runs under `SERIALIZABLE` with `UPDLOCK, HOLDLOCK`: the locking read
blocks every other transaction's read of (or insert into) the ticket
table until the reader's transaction ends.  A transaction is therefore:
acquire the range lock with the read (obtaining `MAX+1`), insert the row,
and commit, releasing the lock.  Transactions are identified by natural
numbers; any subset of them may run and interleave. -/

inductive Phase where
  | idle : Phase
  | got : Nat → Phase
  | done : Nat → Phase
deriving DecidableEq

structure AllocState where
  table : List Nat
  lock : Option Nat
  ph : Nat → Phase

/-- Interleaved execution of allocate-and-insert transactions.  `read t`
is the `UPDLOCK/HOLDLOCK` read inside `next_ticket_number` for
transaction `t`: it needs the range lock to be free and takes it;
`finish t` is the insert of the allocated number together with the
commit that releases the lock. -/
inductive AllocStep : AllocState → AllocState → Prop where
  | read (t : Nat) (s : AllocState) (h1 : s.ph t = .idle) (h2 : s.lock = none) :
      AllocStep s ⟨s.table, some t, Function.update s.ph t (.got (next_ticket_number s.table))⟩
  | finish (t v : Nat) (s : AllocState) (h1 : s.ph t = .got v) (h2 : s.lock = some t) :
      AllocStep s ⟨v :: s.table, none, Function.update s.ph t (.done v)⟩

/-- Initial state: the ticket table holds `t0`, no lock, every instance
about to allocate. -/
def allocInit (t0 : List Nat) : AllocState := ⟨t0, none, fun _ => .idle⟩

/-- Reachability under interleaved steps. -/
def AllocReach (t0 : List Nat) (s : AllocState) : Prop :=
  Relation.ReflTransGen AllocStep (allocInit t0) s

/-- Inductive invariant of the race, for any number of transactions: the
table maximum never decreases; a transaction between its locked read and
its commit holds the lock and read the current maximum plus one; a
committed value is in the table and above the initial maximum; committed
values are pairwise distinct. -/
def AllocInv (t0 : List Nat) (s : AllocState) : Prop :=
  listMax t0 ≤ listMax s.table ∧
  (∀ t v, s.ph t = .got v → s.lock = some t ∧ v = listMax s.table + 1) ∧
  (∀ t v, s.ph t = .done v → v ∈ s.table ∧ listMax t0 < v) ∧
  (∀ i j vi vj, i ≠ j → s.ph i = .done vi → s.ph j = .done vj → vi ≠ vj)

theorem allocInv_step {t0 : List Nat} {s s' : AllocState}
    (h : AllocInv t0 s) (hs : AllocStep s s') : AllocInv t0 s' := by
  obtain ⟨hmono, hgot, hdone, hdist⟩ := h
  cases hs with
  | read t _ h1 h2 =>
    dsimp only [AllocInv]
    refine ⟨hmono, ?_, ?_, ?_⟩
    · intro u w hu
      by_cases hut : u = t
      · subst hut
        rw [Function.update_same] at hu
        simp only [Phase.got.injEq] at hu
        exact ⟨rfl, hu.symm⟩
      · rw [Function.update_noteq hut] at hu
        have hc := (hgot u w hu).1
        rw [h2] at hc
        exact Option.noConfusion hc
    · intro u w hu
      by_cases hut : u = t
      · subst hut
        rw [Function.update_same] at hu
        exact Phase.noConfusion hu
      · rw [Function.update_noteq hut] at hu
        exact hdone u w hu
    · intro i j vi vj hij hi hj
      by_cases hit : i = t
      · subst hit
        rw [Function.update_same] at hi
        exact Phase.noConfusion hi
      · by_cases hjt : j = t
        · subst hjt
          rw [Function.update_same] at hj
          exact Phase.noConfusion hj
        · rw [Function.update_noteq hit] at hi
          rw [Function.update_noteq hjt] at hj
          exact hdist i j vi vj hij hi hj
  | finish t v _ h1 h2 =>
    have hv : v = listMax s.table + 1 := (hgot t v h1).2
    have hmax : listMax (v :: s.table) = v := by
      rw [listMax_cons, hv]
      exact Nat.max_eq_left (Nat.le_succ _)
    dsimp only [AllocInv]
    refine ⟨?_, ?_, ?_, ?_⟩
    · show listMax t0 ≤ listMax (v :: s.table)
      rw [hmax]
      omega
    · intro u w hu
      by_cases hut : u = t
      · subst hut
        rw [Function.update_same] at hu
        exact Phase.noConfusion hu
      · rw [Function.update_noteq hut] at hu
        have hc := (hgot u w hu).1
        rw [h2] at hc
        exact absurd (Option.some_inj.mp hc).symm hut
    · intro u w hu
      by_cases hut : u = t
      · subst hut
        rw [Function.update_same] at hu
        simp only [Phase.done.injEq] at hu
        subst hu
        exact ⟨List.mem_cons_self v s.table, by omega⟩
      · rw [Function.update_noteq hut] at hu
        obtain ⟨hin, hgt⟩ := hdone u w hu
        exact ⟨List.mem_cons_of_mem _ hin, hgt⟩
    · intro i j vi vj hij hi hj
      by_cases hit : i = t
      · subst hit
        rw [Function.update_same] at hi
        simp only [Phase.done.injEq] at hi
        subst hi
        rw [Function.update_noteq (Ne.symm hij)] at hj
        have hle := le_listMax_of_mem (hdone j vj hj).1
        omega
      · by_cases hjt : j = t
        · subst hjt
          rw [Function.update_same] at hj
          simp only [Phase.done.injEq] at hj
          subst hj
          rw [Function.update_noteq hit] at hi
          have hle := le_listMax_of_mem (hdone i vi hi).1
          omega
        · rw [Function.update_noteq hit] at hi
          rw [Function.update_noteq hjt] at hj
          exact hdist i j vi vj hij hi hj

theorem allocReach_inv {t0 : List Nat} {s : AllocState} (h : AllocReach t0 s) :
    AllocInv t0 s := by
  induction h with
  | refl =>
    refine ⟨Nat.le_refl _, ?_, ?_, ?_⟩
    · intro t v hu
      exact Phase.noConfusion hu
    · intro t v hu
      exact Phase.noConfusion hu
    · intro i j vi vj hij hi hj
      exact Phase.noConfusion hi
  | tail _ step ih => exact allocInv_step ih step

/- ================= Claim theorems ================= -/

/-- Claim C1: for every state of the ticket table, `next_ticket_number`
returns a value strictly greater than every ticket number in the table;
concretely it returns the maximum plus one, and returns `1` when the
table is empty. -/
theorem allocate_gt_max (table : List Nat) :
    (∀ x ∈ table, x < next_ticket_number table) ∧
    next_ticket_number table = listMax table + 1 ∧
    next_ticket_number [] = 1 :=
  ⟨fun _ hx => Nat.lt_succ_of_le (le_listMax_of_mem hx), rfl, rfl⟩

theorem allocate_gt_max_witness :
    5 < next_ticket_number [3, 5] ∧ next_ticket_number [] = 1 :=
  ⟨(allocate_gt_max [3, 5]).1 5 (by decide), (allocate_gt_max []).2.2⟩

/-- Claim C2: in any interleaving of any set of allocate-and-insert
transactions under the allocator's held range lock, the completed
transactions receive pairwise distinct ticket numbers, each strictly
above the table's initial maximum. -/
theorem concurrent_allocate_distinct (t0 : List Nat) (s : AllocState)
    (hr : AllocReach t0 s) (i j vi vj : Nat) (hij : i ≠ j)
    (hi : s.ph i = .done vi) (hj : s.ph j = .done vj) :
    vi ≠ vj ∧ listMax t0 < vi ∧ listMax t0 < vj := by
  obtain ⟨-, -, hdone, hdist⟩ := allocReach_inv hr
  exact ⟨hdist i j vi vj hij hi hj, (hdone i vi hi).2, (hdone j vj hj).2⟩

/-- Scenario C of the spec: initial maximum 5, two overlapping
transactions (numbered 0 and 1) complete with 6 and 7, which the claim
theorem shows distinct and above the old maximum. -/
theorem concurrent_allocate_distinct_witness :
    (6 : Nat) ≠ 7 ∧ listMax [5] < 6 ∧ listMax [5] < 7 := by
  have hr := Relation.ReflTransGen.tail (Relation.ReflTransGen.tail
    (Relation.ReflTransGen.tail
      (Relation.ReflTransGen.tail (Relation.ReflTransGen.refl) (AllocStep.read 0 (allocInit [5]) rfl rfl))
      (AllocStep.finish 0 6 _ rfl rfl))
    (AllocStep.read 1 _ rfl rfl)) (AllocStep.finish 1 7 _ rfl rfl)
  exact concurrent_allocate_distinct [5] _ hr 0 1 6 7 (by decide) rfl rfl

/-- Claim C6: `is_undelivered` returns true iff the lower-cased subject,
or the lower-cased decoded text of some `text/plain` or `text/html`
part, contains one of the six fixed phrases. -/
theorem is_undelivered_iff (m : EmailMsg) :
    is_undelivered m = true ↔
      (∃ n ∈ needles, ContainsSub n.data (pyLower m.subject).data) ∨
      (∃ p ∈ walk m, (p.ctype = "text/plain" ∨ p.ctype = "text/html") ∧
        ∃ t, p.text = some t ∧ ∃ n ∈ needles, ContainsSub n.data (pyLower t).data) := by
  have hsub : ∀ s : String,
      (needles.any (fun n => subtext n.data (pyLower s).data) = true) ↔
      ∃ n ∈ needles, ContainsSub n.data (pyLower s).data := by
    intro s
    simp only [List.any_eq_true, subtext_eq_true_iff]
  unfold is_undelivered
  split
  next hs =>
    simp only [true_iff]
    exact Or.inl ((hsub m.subject).mp hs)
  next hs =>
    rw [List.any_eq_true]
    constructor
    · rintro ⟨p, hp, hpred⟩
      rw [Bool.and_eq_true] at hpred
      obtain ⟨hct, htxt⟩ := hpred
      cases hpt : p.text with
      | none => rw [hpt] at htxt; simp at htxt
      | some t =>
        rw [hpt] at htxt
        refine Or.inr ⟨p, hp, ?_, t, hpt, (hsub t).mp htxt⟩
        simp only [Bool.or_eq_true, beq_iff_eq] at hct
        exact hct
    · rintro (hl | ⟨p, hp, hct, t, hpt, hneedle⟩)
      · exact absurd ((hsub m.subject).mpr hl) (by simpa using hs)
      · refine ⟨p, hp, ?_⟩
        rw [Bool.and_eq_true]
        refine ⟨?_, ?_⟩
        · rcases hct with h | h <;> simp [h]
        · rw [hpt]
          exact (hsub t).mpr hneedle

/-- A multipart message with two decodable plain-text parts and no HTML
part. -/
def msgTwoPlain : EmailMsg where
  subject := "Hello"
  sender := "a@b.com"
  multipart := true
  rootCtype := "multipart/mixed"
  rootText := none
  subParts := [⟨"text/plain", some "A"⟩, ⟨"text/plain", some "B"⟩]

/-- Claim C7 counterexample: on a message whose first plain-text part is
`"A"` and second is `"B"`, the code stores `"B"` (the last plain part
scanned), not the first plain part as the claim states. -/
theorem body_selection_not_first_plain :
    selectBody msgTwoPlain = (some "B", false) ∧
    ((walk msgTwoPlain).find? (fun p => p.ctype == "text/plain")).bind EmailPart.text
      = some "A" ∧
    renderBody msgTwoPlain = "<html><body><pre>B</pre></body></html>" ∧
    renderBody msgTwoPlain ≠ "<html><body><pre>A</pre></body></html>" := by
  refine ⟨by decide, by decide, by decide, by decide⟩

/-- Claim C7 (amended): for a multipart message the stored body content
is the first `text/html` part that decodes; otherwise the selection left
by the last body-setting part scanned — each `text/plain` part
overwrites the selection with its decoded text and each undecodable
`text/html` part resets it.  For a non-multipart message the selection
is the message's own decoded payload, whatever its content type, and it
is always treated as non-HTML.  A non-HTML selection is wrapped in a
minimal HTML document (so even a single-part HTML payload is stored
`<pre>`-wrapped), an HTML selection is stored as is, and the literal
placeholder `"(No message content)"` is substituted for an empty or
missing selection. -/
theorem body_selection_spec (m : EmailMsg) :
    (m.multipart = true → ∀ t, firstHtml (walk m) = some t → selectBody m = (some t, true)) ∧
    (m.multipart = true → firstHtml (walk m) = none →
      selectBody m =
        ((match lastSetter (walk m) with | some p => p.text | none => none), false)) ∧
    (m.multipart = false → selectBody m = (m.rootText, false)) ∧
    (∀ b, selectBody m = (b, false) →
      renderBody m = "<html><body><pre>" ++
        (if (b.getD "") == "" then "(No message content)" else b.getD "") ++
        "</pre></body></html>") ∧
    (∀ t, selectBody m = (some t, true) →
      renderBody m = if t == "" then "(No message content)" else t) := by
  refine ⟨?_, ?_, ?_, ?_, ?_⟩
  · intro hm t ht
    have hsel : selectBody m = scanParts (walk m) none := by simp [selectBody, hm]
    rw [hsel, scanParts_spec (walk m) none, ht]
  · intro hm ht
    have hsel : selectBody m = scanParts (walk m) none := by simp [selectBody, hm]
    rw [hsel, scanParts_spec (walk m) none, ht]
  · intro hm
    simp [selectBody, hm]
  · intro b hb
    rw [renderBody, hb]
    simp
  · intro t ht
    rw [renderBody, ht]
    simp only [Option.getD_some]
    by_cases he : t = "" <;> simp [he]

/-- A multipart message whose only text part is a decodable HTML part. -/
def msgHtmlOnly : EmailMsg where
  subject := "Hi"
  sender := "c@d.com"
  multipart := true
  rootCtype := "multipart/alternative"
  rootText := none
  subParts := [⟨"text/html", some "<p>H</p>"⟩]

theorem body_selection_spec_witness :
    selectBody msgHtmlOnly = (some "<p>H</p>", true) ∧
    renderBody msgHtmlOnly = "<p>H</p>" := by
  have h1 := (body_selection_spec msgHtmlOnly).1 rfl "<p>H</p>" (by decide)
  have h2 := (body_selection_spec msgHtmlOnly).2.2.2.2 "<p>H</p>" h1
  exact ⟨h1, by rw [h2]; decide⟩

/-- Claim C8: every string column written by `store_in_cms` and
`store_member` is a prefix of the supplied value of length exactly
`min limit input-length` — a pure prefix cut to the declared limit, with
over-long values truncated rather than rejected (the stores are total:
every call yields exactly one row). -/
theorem store_truncation (v : CmsVals) (tbl : List MemberRow) (ffnum : String)
    (em ti fn ln tr : Option String) :
    ((store_in_cms v).ffnum.data <+: (v.ffnum.getD "").data ∧
      (store_in_cms v).ffnum.length = min 250 (v.ffnum.getD "").length) ∧
    ((store_in_cms v).Category.data <+: (v.Category.getD "").data ∧
      (store_in_cms v).Category.length = min 50 (v.Category.getD "").length) ∧
    ((store_in_cms v).Subject.data <+: (v.Subject.getD "").data ∧
      (store_in_cms v).Subject.length = min 1600 (v.Subject.getD "").length) ∧
    ((store_in_cms v).cstatus.data <+: (v.cstatus.getD "").data ∧
      (store_in_cms v).cstatus.length = min 1 (v.cstatus.getD "").length) ∧
    ((store_in_cms v).UpdateBy.data <+: (v.UpdateBy.getD "").data ∧
      (store_in_cms v).UpdateBy.length = min 50 (v.UpdateBy.getD "").length) ∧
    ((store_in_cms v).fwd_to.data <+: (v.fwd_to.getD "").data ∧
      (store_in_cms v).fwd_to.length = min 50 (v.fwd_to.getD "").length) ∧
    ((store_in_cms v).fwd_remarks.data <+: (v.fwd_remarks.getD "").data ∧
      (store_in_cms v).fwd_remarks.length = min 250 (v.fwd_remarks.getD "").length) ∧
    ((store_in_cms v).fwd_by.data <+: (v.fwd_by.getD "").data ∧
      (store_in_cms v).fwd_by.length = min 50 (v.fwd_by.getD "").length) ∧
    ((store_in_cms v).attachments.data <+: (v.attachments.getD "").data ∧
      (store_in_cms v).attachments.length = min 100 (v.attachments.getD "").length) ∧
    ((store_in_cms v).email.data <+: (v.email.getD "").data ∧
      (store_in_cms v).email.length = min 200 (v.email.getD "").length) ∧
    ((store_in_cms v).TopCategory.data <+: (v.TopCategory.getD "").data ∧
      (store_in_cms v).TopCategory.length = min 30 (v.TopCategory.getD "").length) ∧
    ((store_in_cms v).CorporateDetails.data <+: (v.CorporateDetails.getD "").data ∧
      (store_in_cms v).CorporateDetails.length = min 12 (v.CorporateDetails.getD "").length) ∧
    ((store_in_cms v).urgent.data <+: (v.urgent.getD "").data ∧
      (store_in_cms v).urgent.length = min 5 (v.urgent.getD "").length) ∧
    ((store_in_cms v).Req_By.data <+: (v.Req_By.getD "").data ∧
      (store_in_cms v).Req_By.length = min 25 (v.Req_By.getD "").length) ∧
    ((store_in_cms v).PointsExp.data <+: (v.PointsExp.getD "").data ∧
      (store_in_cms v).PointsExp.length = min 1 (v.PointsExp.getD "").length) ∧
    ((store_in_cms v).tier.data <+: (v.tier.getD "").data ∧
      (store_in_cms v).tier.length = min 1 (v.tier.getD "").length) ∧
    ((store_in_cms v).hitit_ref_no.data <+: (v.hitit_ref_no.getD "").data ∧
      (store_in_cms v).hitit_ref_no.length = min 50 (v.hitit_ref_no.getD "").length) ∧
    (tbl.any (fun r => r.FFNUM == ffnum) = false →
      ∃ r, store_member tbl ffnum em ti fn ln tr = tbl ++ [r] ∧
        (r.EMAIL.data <+: (em.getD "").data ∧ r.EMAIL.length = min 200 (em.getD "").length) ∧
        (r.TITLE.data <+: (ti.getD "").data ∧ r.TITLE.length = min 50 (ti.getD "").length) ∧
        (r.FNAME.data <+: (fn.getD "").data ∧ r.FNAME.length = min 50 (fn.getD "").length) ∧
        (r.LNAME.data <+: (ln.getD "").data ∧ r.LNAME.length = min 50 (ln.getD "").length) ∧
        (r.tier.data <+: (tr.getD "").data ∧ r.tier.length = min 1 (tr.getD "").length)) := by
  refine ⟨fit_spec _ _, fit_spec _ _, fit_spec _ _, fit_spec _ _, fit_spec _ _,
    fit_spec _ _, fit_spec _ _, fit_spec _ _, fit_spec _ _, fit_spec _ _,
    fit_spec _ _, fit_spec _ _, fit_spec _ _, fit_spec _ _, fit_spec _ _,
    fit_spec _ _, fit_spec _ _, ?_⟩
  intro h
  refine ⟨{ FFNUM := ffnum, EMAIL := fit em 200, TITLE := fit ti 50,
            FNAME := fit fn 50, LNAME := fit ln 50, tier := fit tr 1 }, ?_,
          fit_spec _ _, fit_spec _ _, fit_spec _ _, fit_spec _ _, fit_spec _ _⟩
  simp [store_member, h]

/-- A concrete `store_in_cms` argument record with an over-long subject. -/
def cmsValsEx : CmsVals where
  tkt_no := 9
  ffnum := some "FF123"
  Req_Date := 0
  Category := some "General"
  Subject := some (String.mk (List.replicate 1700 'S'))
  cstatus := some "N"
  UpdateDate := 0
  UpdateBy := some ""
  fwd_to := none
  fwd_date := none
  fwd_remarks := none
  fwd_by := none
  attachments := some "attachments/9.html"
  email := some "user@example.com"
  TopCategory := some ""
  CorporateDetails := none
  urgent := some "No"
  Req_By := some "user"
  PointsExp := some ""
  tier := some "G"
  download_datetime := 0
  hitit_ref_no := none

theorem store_truncation_witness :
    ∃ r, store_member [] "FF9" (some "member@example.com") (some "Mr") (some "Jo")
        (some "Doe") (some "Gold") = [] ++ [r] ∧
      (r.EMAIL.data <+: ((some "member@example.com").getD "").data ∧
        r.EMAIL.length = min 200 ((some "member@example.com").getD "").length) ∧
      (r.TITLE.data <+: ((some "Mr").getD "").data ∧
        r.TITLE.length = min 50 ((some "Mr").getD "").length) ∧
      (r.FNAME.data <+: ((some "Jo").getD "").data ∧
        r.FNAME.length = min 50 ((some "Jo").getD "").length) ∧
      (r.LNAME.data <+: ((some "Doe").getD "").data ∧
        r.LNAME.length = min 50 ((some "Doe").getD "").length) ∧
      (r.tier.data <+: ((some "Gold").getD "").data ∧
        r.tier.length = min 1 ((some "Gold").getD "").length) :=
  (store_truncation cmsValsEx [] "FF9" (some "member@example.com") (some "Mr")
    (some "Jo") (some "Doe") (some "Gold")).2.2.2.2.2.2.2.2.2.2.2.2.2.2.2.2.2 rfl

/-- Claim C5: an exception inside the ticket path's `try` block rolls the
whole transaction back — committed rows are untouched and nothing pending
survives, so no ticket row is persisted and the allocated number is not
bound to any row — the message is left unconsumed (not deleted, not added
to `seen`), and the loop proceeds to the remaining messages. -/
theorem ticket_failure_rolls_back (cfg : Config) (i : Nat) (s : RunState)
    (rest : List Nat)
    (hskip : (uidTruthy (cfg.uidMap i) && s.seen.contains ((cfg.uidMap i).getD "")) = false)
    (hbounce : is_undelivered (cfg.msgs i) = false)
    (hfail : cfg.failTicket i = true) :
    stepMsg cfg i s = { s with db := s.db.rollback } ∧
    (stepMsg cfg i s).db.cms = s.db.cms ∧
    (stepMsg cfg i s).db.undelivered = s.db.undelivered ∧
    (stepMsg cfg i s).db.pendingCms = [] ∧
    (stepMsg cfg i s).db.pendingUndeliv = [] ∧
    (stepMsg cfg i s).seen = s.seen ∧
    (stepMsg cfg i s).deleted = s.deleted ∧
    runLoop cfg (i :: rest) s = runLoop cfg rest (stepMsg cfg i s) := by
  have hproc : process_email cfg i s.db = .err s.db.rollback := by
    simp [process_email, hbounce, hfail]
  have hstep : stepMsg cfg i s = { s with db := s.db.rollback } := by
    rw [stepMsg, hskip]
    simp only [Bool.false_eq_true, if_false]
    rw [handleMsg, hproc]
  exact ⟨hstep, by rw [hstep]; try rfl, by rw [hstep]; try rfl, by rw [hstep]; try rfl,
    by rw [hstep]; try rfl, by rw [hstep]; try rfl, by rw [hstep]; try rfl, rfl⟩

/-- A non-bounce message from an unknown sender. -/
def plainMsg : EmailMsg where
  subject := "Hello"
  sender := "a@b.com"
  multipart := false
  rootCtype := "text/plain"
  rootText := some "please help with my booking"
  subParts := []

/-- A run whose only message hits an exception on the ticket path. -/
def cfgFail : Config where
  msgs := fun _ => plainMsg
  uidMap := fun _ => some "UIDL-F"
  memberDir := fun _ => none
  attachDir := "attachments"
  today := 0
  now := 0
  failTicket := fun _ => true
  deleteFails := fun _ => false

theorem ticket_failure_rolls_back_witness :
    stepMsg cfgFail 1 ⟨⟨[], [], [], []⟩, [], []⟩ =
      { db := ⟨[], [], [], []⟩, seen := [], deleted := [] } ∧
    (stepMsg cfgFail 1 ⟨⟨[], [], [], []⟩, [], []⟩).db.cms = [] ∧
    (stepMsg cfgFail 1 ⟨⟨[], [], [], []⟩, [], []⟩).db.undelivered = [] ∧
    (stepMsg cfgFail 1 ⟨⟨[], [], [], []⟩, [], []⟩).db.pendingCms = [] ∧
    (stepMsg cfgFail 1 ⟨⟨[], [], [], []⟩, [], []⟩).db.pendingUndeliv = [] ∧
    (stepMsg cfgFail 1 ⟨⟨[], [], [], []⟩, [], []⟩).seen = [] ∧
    (stepMsg cfgFail 1 ⟨⟨[], [], [], []⟩, [], []⟩).deleted = [] ∧
    runLoop cfgFail [1, 2] ⟨⟨[], [], [], []⟩, [], []⟩ =
      runLoop cfgFail [2] (stepMsg cfgFail 1 ⟨⟨[], [], [], []⟩, [], []⟩) :=
  ticket_failure_rolls_back cfgFail 1 ⟨⟨[], [], [], []⟩, [], []⟩ [2]
    (by decide) (by decide) rfl

/-- Claim C10: a message index with no UIDL entry is never gated on the
dedup set — the loop handles it whatever `seen` contains — and its
handling never adds an identifier to `seen`. -/
theorem unknown_uid_bypasses_dedup (cfg : Config) (i : Nat) (s : RunState)
    (hnone : cfg.uidMap i = none) :
    stepMsg cfg i s = handleMsg cfg i s ∧ (stepMsg cfg i s).seen = s.seen := by
  have h1 : stepMsg cfg i s = handleMsg cfg i s := by
    simp [stepMsg, hnone, uidTruthy]
  refine ⟨h1, ?_⟩
  rw [h1, handleMsg]
  cases hp : process_email cfg i s.db with
  | err db2 => rfl
  | ok t db2 =>
    by_cases hd : cfg.deleteFails i <;> simp [hd, hnone, uidTruthy]

/-- A run whose UIDL map is empty while `seen` already has entries. -/
def cfgNoUid : Config where
  msgs := fun _ => plainMsg
  uidMap := fun _ => none
  memberDir := fun _ => none
  attachDir := "attachments"
  today := 0
  now := 0
  failTicket := fun _ => false
  deleteFails := fun _ => false

theorem unknown_uid_bypasses_dedup_witness :
    stepMsg cfgNoUid 1 ⟨⟨[], [], [], []⟩, ["X", "Y"], []⟩ =
      handleMsg cfgNoUid 1 ⟨⟨[], [], [], []⟩, ["X", "Y"], []⟩ ∧
    (stepMsg cfgNoUid 1 ⟨⟨[], [], [], []⟩, ["X", "Y"], []⟩).seen = ["X", "Y"] :=
  unknown_uid_bypasses_dedup cfgNoUid 1 ⟨⟨[], [], [], []⟩, ["X", "Y"], []⟩ rfl

/-- A bounce-classified message (subject from spec Scenario B). -/
def bounceMsg : EmailMsg where
  subject := "Mail Delivery Failed: returned message"
  sender := "someone@example.com"
  multipart := false
  rootCtype := "text/plain"
  rootText := some "the message could not be delivered"
  subParts := []

/-- A run consisting of exactly one bounce message with a known UIDL. -/
def cfgBounce : Config where
  msgs := fun _ => bounceMsg
  uidMap := fun _ => some "UIDL-1"
  memberDir := fun _ => none
  attachDir := "attachments"
  today := 0
  now := 0
  failTicket := fun _ => false
  deleteFails := fun _ => false

/-- Claim C3 (code bug): on a bounce message `process_email` inserts
exactly one `undelivered_emails` row with reason
`"Undelivered Mail/Return"`, and creates no ticket, but never commits —
the row is still pending when the function returns, and a run consisting
of that one message ends (connection close rolls back) with **no**
committed UndeliveredRecord even though the message was deleted from the
mailbox. -/
theorem bounce_record_never_committed :
    process_email cfgBounce 1 ⟨[], [], [], []⟩ =
      .ok none ⟨[], [], [], [⟨"someone@example.com", 0, "Undelivered Mail/Return"⟩]⟩ ∧
    (runMain cfgBounce 1 ⟨⟨[], [], [], []⟩, [], []⟩).db.undelivered = [] ∧
    (runMain cfgBounce 1 ⟨⟨[], [], [], []⟩, [], []⟩).db.pendingUndeliv = [] ∧
    (runMain cfgBounce 1 ⟨⟨[], [], [], []⟩, [], []⟩).db.cms = [] ∧
    (runMain cfgBounce 1 ⟨⟨[], [], [], []⟩, [], []⟩).deleted = [1] := by
  refine ⟨by decide, by decide, by decide, by decide, by decide⟩

/-- The same bounce run with a different identifier, for claim C4. -/
def cfgBounce2 : Config where
  msgs := fun _ => bounceMsg
  uidMap := fun _ => some "UIDL-2"
  memberDir := fun _ => none
  attachDir := "attachments"
  today := 0
  now := 0
  failTicket := fun _ => false
  deleteFails := fun _ => false

/-- Claim C4 (code bug): after a single-bounce run the message identifier
sits in the dedup set although no UndeliveredRecord was ever committed —
the identifier is added right after the mailbox delete, while the bounce
insert is still pending, and the pending insert is lost when the
connection closes. -/
theorem uid_added_without_commit :
    (runMain cfgBounce2 1 ⟨⟨[], [], [], []⟩, [], []⟩).seen = ["UIDL-2"] ∧
    (runMain cfgBounce2 1 ⟨⟨[], [], [], []⟩, [], []⟩).db.undelivered = [] ∧
    (runMain cfgBounce2 1 ⟨⟨[], [], [], []⟩, [], []⟩).db.pendingUndeliv = [] ∧
    (runMain cfgBounce2 1 ⟨⟨[], [], [], []⟩, [], []⟩).db.cms = [] := by
  refine ⟨by decide, by decide, by decide, by decide⟩

/- ---------------- Attachment names (`sanitize_filename`,
`save_attachment`) ---------------- -/

/-- Python `\s` (ASCII range): the whitespace characters collapsed by
`re.sub(r"\s+", " ", ...)` and stripped by `.strip()`. -/
def pyWS (c : Char) : Bool :=
  (c == ' ') || (c == '\t') || (c == '\n') || (c == '\r') || (c == '\x0b') || (c == '\x0c')

/-- The characters removed by `re.sub(r'[\\/*?:"<>|]', "", name)`. -/
def illegalChars : List Char := ['\\', '/', '*', '?', ':', '"', '<', '>', '|']

def removeIllegal (l : List Char) : List Char := l.filter (fun c => !(illegalChars.contains c))

/-- Whitespace-run collapsing (`re.sub(r"\s+", " ", ...)`); the flag says
whether the previous character was part of a whitespace run already
emitted as a single space. -/
def collapseAux : Bool → List Char → List Char
  | _, [] => []
  | b, c :: rest =>
    if pyWS c then
      if b then collapseAux true rest else ' ' :: collapseAux true rest
    else c :: collapseAux false rest

def collapseWS (l : List Char) : List Char := collapseAux false l

/-- `.strip()`: drop leading and trailing whitespace. -/
def stripWS (l : List Char) : List Char :=
  ((l.dropWhile pyWS).reverse.dropWhile pyWS).reverse

/-- `os.path.splitext` on a bare file name (no path separators): split at
the last dot unless every character before it is a dot (then no
extension). -/
def splitext (p : List Char) : List Char × List Char :=
  match (p.reverse).dropWhile (fun c => !(c == '.')) with
  | [] => (p, [])
  | c :: rest' =>
    if rest'.reverse.all (fun x => x == '.') then (p, [])
    else (rest'.reverse, c :: ((p.reverse).takeWhile (fun x => !(x == '.'))).reverse)

/-- The cleaned name before the length cap: ticket-number prefix, illegal
characters removed, whitespace collapsed and stripped. -/
def cleanedName (name : String) (ticket_no : Nat) : List Char :=
  stripWS (collapseWS (removeIllegal ((toString ticket_no).data ++ '_' :: name.data)))

/-- `sanitize_filename(name, ticket_no)` from the source: prefix the
ticket number, remove illegal characters, collapse and strip whitespace;
when the result exceeds 150 characters keep the first 140 characters of
the root and the first 10 of the extension. -/
def sanitize_filename (name : String) (ticket_no : Nat) : String :=
  let n3 := cleanedName name ticket_no
  if 150 < n3.length then
    String.mk ((splitext n3).1.take 140 ++ (splitext n3).2.take 10)
  else String.mk n3

/-- The filesystem path `save_attachment` writes to:
`ATTACH_DIR / str(ticket_no) / sanitize_filename(...)`. -/
def save_attachment_path (attachDir : String) (fn : String) (ticket_no : Nat) : String :=
  attachDir ++ "/" ++ toString ticket_no ++ "/" ++ sanitize_filename fn ticket_no

/-- No two adjacent spaces. -/
def noDouble : List Char → Bool
  | [] => true
  | [_] => true
  | a :: b :: rest => !((a == ' ') && (b == ' ')) && noDouble (b :: rest)

theorem mem_takeWhile_pred {p : Char → Bool} {c : Char} :
    ∀ {l : List Char}, c ∈ l.takeWhile p → p c = true := by
  intro l
  induction l with
  | nil => intro h; simp [List.takeWhile] at h
  | cons a r ih =>
    intro h
    rw [List.takeWhile_cons] at h
    by_cases hp : p a
    · rw [if_pos hp] at h
      rcases List.mem_cons.mp h with rfl | h
      · exact hp
      · exact ih h
    · rw [if_neg hp] at h
      simp at h

theorem mem_dropWhile_pred {p : Char → Bool} {c : Char} :
    ∀ {l : List Char}, c ∈ l.dropWhile p → c ∈ l := by
  intro l
  induction l with
  | nil => intro h; simp [List.dropWhile] at h
  | cons a r ih =>
    intro h
    rw [List.dropWhile_cons] at h
    by_cases hp : p a
    · rw [if_pos hp] at h
      exact List.mem_cons_of_mem _ (ih h)
    · rw [if_neg hp] at h
      exact h

theorem dropWhile_head_false {p : Char → Bool} {c : Char} {r : List Char} :
    ∀ {l : List Char}, l.dropWhile p = c :: r → p c = false := by
  intro l
  induction l with
  | nil => intro h; simp at h
  | cons a t ih =>
    intro h
    rw [List.dropWhile_cons] at h
    by_cases hp : p a
    · rw [if_pos hp] at h
      exact ih h
    · rw [if_neg hp] at h
      cases h
      exact Bool.not_eq_true _ ▸ (by simpa using hp)

theorem mem_collapseAux {c : Char} :
    ∀ (l : List Char) (b : Bool), c ∈ collapseAux b l → c = ' ' ∨ c ∈ l := by
  intro l
  induction l with
  | nil => intro b h; simp [collapseAux] at h
  | cons a rest ih =>
    intro b h
    by_cases hws : pyWS a
    · cases b with
      | false =>
        rw [collapseAux, if_pos hws, if_neg (by simp)] at h
        rcases List.mem_cons.mp h with h | h
        · exact Or.inl h
        · rcases ih true h with h | h
          · exact Or.inl h
          · exact Or.inr (List.mem_cons_of_mem _ h)
      | true =>
        rw [collapseAux, if_pos hws, if_pos rfl] at h
        rcases ih true h with h | h
        · exact Or.inl h
        · exact Or.inr (List.mem_cons_of_mem _ h)
    · rw [collapseAux, if_neg hws] at h
      rcases List.mem_cons.mp h with h | h
      · exact Or.inr (h ▸ List.mem_cons_self a rest)
      · rcases ih false h with h | h
        · exact Or.inl h
        · exact Or.inr (List.mem_cons_of_mem _ h)

theorem ws_collapseAux {c : Char} :
    ∀ (l : List Char) (b : Bool), c ∈ collapseAux b l → pyWS c = true → c = ' ' := by
  intro l
  induction l with
  | nil => intro b h; simp [collapseAux] at h
  | cons a rest ih =>
    intro b h hc
    by_cases hws : pyWS a
    · cases b with
      | false =>
        rw [collapseAux, if_pos hws, if_neg (by simp)] at h
        rcases List.mem_cons.mp h with h | h
        · exact h
        · exact ih true h hc
      | true =>
        rw [collapseAux, if_pos hws, if_pos rfl] at h
        exact ih true h hc
    · rw [collapseAux, if_neg hws] at h
      rcases List.mem_cons.mp h with h | h
      · exact absurd (h ▸ hc) (by simp [hws])
      · exact ih false h hc

theorem head_collapseAux_true {c : Char} :
    ∀ (l : List Char), (collapseAux true l).head? = some c → pyWS c = false := by
  intro l
  induction l with
  | nil => intro h; simp [collapseAux] at h
  | cons a rest ih =>
    intro h
    by_cases hws : pyWS a
    · rw [collapseAux, if_pos hws, if_pos rfl] at h
      exact ih h
    · rw [collapseAux, if_neg hws] at h
      simp only [List.head?_cons, Option.some.injEq] at h
      subst h
      simpa using hws

theorem noDouble_cons_iff (a : Char) (l : List Char) :
    noDouble (a :: l) = true ↔
    noDouble l = true ∧ ∀ x, l.head? = some x → ¬(a = ' ' ∧ x = ' ') := by
  cases l with
  | nil => simp [noDouble]
  | cons b r =>
    rw [noDouble]
    rw [Bool.and_eq_true, Bool.not_eq_true', Bool.and_eq_false_iff]
    simp only [List.head?_cons, Option.some.injEq, beq_eq_false_iff_ne, ne_eq]
    constructor
    · rintro ⟨h1, h2⟩
      refine ⟨h2, fun x hx ⟨ha, hb⟩ => ?_⟩
      subst hx
      rcases h1 with h1 | h1
      · exact h1 ha
      · exact h1 hb
    · rintro ⟨h2, h1⟩
      refine ⟨?_, h2⟩
      by_cases ha : a = ' '
      · exact Or.inr fun hb => h1 b rfl ⟨ha, hb⟩
      · exact Or.inl ha

theorem noDouble_collapseAux : ∀ (l : List Char) (b : Bool), noDouble (collapseAux b l) = true := by
  intro l
  induction l with
  | nil => intro b; simp [collapseAux, noDouble]
  | cons a rest ih =>
    intro b
    by_cases hws : pyWS a
    · cases b with
      | false =>
        rw [collapseAux, if_pos hws, if_neg (by simp)]
        rw [noDouble_cons_iff]
        refine ⟨ih true, fun x hx hc => ?_⟩
        have := head_collapseAux_true rest hx
        rw [hc.2] at this
        simp [pyWS] at this
      | true =>
        rw [collapseAux, if_pos hws, if_pos rfl]
        exact ih true
    · rw [collapseAux, if_neg hws]
      rw [noDouble_cons_iff]
      refine ⟨ih false, fun x hx hc => ?_⟩
      rw [hc.1] at hws
      simp [pyWS] at hws

theorem head?_take_pos {l : List Char} {n : Nat} (h : 0 < n) : (l.take n).head? = l.head? := by
  cases l with
  | nil => simp
  | cons a r =>
    cases n with
    | zero => cases h
    | succ n => simp [List.take_succ_cons]

theorem noDouble_take : ∀ (l : List Char) (n : Nat), noDouble l = true → noDouble (l.take n) = true := by
  intro l
  induction l with
  | nil => intro n h; simpa using h
  | cons a r ih =>
    intro n h
    cases n with
    | zero => simp [noDouble]
    | succ n =>
      rw [List.take_succ_cons, noDouble_cons_iff]
      rw [noDouble_cons_iff] at h
      refine ⟨ih n h.1, fun x hx => ?_⟩
      cases n with
      | zero => simp at hx
      | succ n =>
        rw [head?_take_pos (Nat.succ_pos n)] at hx
        exact h.2 x hx

theorem noDouble_tail {a : Char} {l : List Char} (h : noDouble (a :: l) = true) :
    noDouble l = true := ((noDouble_cons_iff a l).mp h).1

theorem noDouble_drop : ∀ (l : List Char) (n : Nat), noDouble l = true → noDouble (l.drop n) = true := by
  intro l
  induction l with
  | nil => intro n h; simpa using h
  | cons a r ih =>
    intro n h
    cases n with
    | zero => exact h
    | succ n => exact ih n (noDouble_tail h)

theorem noDouble_dropWhile {p : Char → Bool} :
    ∀ (l : List Char), noDouble l = true → noDouble (l.dropWhile p) = true := by
  intro l
  induction l with
  | nil => intro h; simpa using h
  | cons a r ih =>
    intro h
    rw [List.dropWhile_cons]
    by_cases hp : p a
    · rw [if_pos hp]
      exact ih (noDouble_tail h)
    · rw [if_neg hp]
      exact h

theorem getLast?_cons_cons_eq {a b : Char} {l : List Char} :
    (a :: b :: l).getLast? = (b :: l).getLast? := List.getLast?_cons_cons

theorem noDouble_append :
    ∀ (a b : List Char), noDouble a = true → noDouble b = true →
    (∀ x y, a.getLast? = some x → b.head? = some y → ¬(x = ' ' ∧ y = ' ')) →
    noDouble (a ++ b) = true := by
  intro a
  induction a with
  | nil => intro b _ hb _; simpa using hb
  | cons x a ih =>
    intro b ha hb hj
    cases a with
    | nil =>
      rw [List.singleton_append, noDouble_cons_iff]
      exact ⟨hb, fun y hy ⟨hx, hys⟩ => hj x y rfl hy ⟨hx, hys⟩⟩
    | cons y a =>
      rw [List.cons_append, noDouble_cons_iff]
      constructor
      · refine ih b (noDouble_tail ha) hb ?_
        intro u v hu hv
        exact hj u v (getLast?_cons_cons_eq.trans hu) hv
      · intro z hz
        simp only [List.cons_append, List.head?_cons, Option.some.injEq] at hz
        subst hz
        exact ((noDouble_cons_iff x (y :: a)).mp ha).2 y rfl

theorem rstrip_decomp (l : List Char) :
    l = (l.reverse.dropWhile pyWS).reverse ++ (l.reverse.takeWhile pyWS).reverse := by
  have h : l.reverse.takeWhile pyWS ++ l.reverse.dropWhile pyWS = l.reverse :=
    List.takeWhile_append_dropWhile pyWS l.reverse
  calc l = l.reverse.reverse := (List.reverse_reverse l).symm
    _ = (l.reverse.takeWhile pyWS ++ l.reverse.dropWhile pyWS).reverse := by rw [h]
    _ = (l.reverse.dropWhile pyWS).reverse ++ (l.reverse.takeWhile pyWS).reverse := by
        rw [List.reverse_append]

theorem rstrip_trailing_ws (l : List Char) :
    ∀ c ∈ (l.reverse.takeWhile pyWS).reverse, pyWS c = true := by
  intro c hc
  rw [List.mem_reverse] at hc
  exact mem_takeWhile_pred hc

/-- `stripWS l` together with the whitespace it removed on either side
recovers `l` minus its leading whitespace. -/
theorem stripWS_decomp (l : List Char) :
    l.dropWhile pyWS = stripWS l ++ ((l.dropWhile pyWS).reverse.takeWhile pyWS).reverse ∧
    ∀ c ∈ ((l.dropWhile pyWS).reverse.takeWhile pyWS).reverse, pyWS c = true :=
  ⟨rstrip_decomp (l.dropWhile pyWS), rstrip_trailing_ws (l.dropWhile pyWS)⟩

theorem noDouble_stripWS (l : List Char) (h : noDouble l = true) :
    noDouble (stripWS l) = true := by
  have h1 : noDouble (l.dropWhile pyWS) = true := noDouble_dropWhile l h
  have hd := (stripWS_decomp l).1
  have h3 : (l.dropWhile pyWS).take (stripWS l).length = stripWS l := by
    conv_lhs => rw [hd]
    exact List.take_left' rfl
  rw [← h3]
  exact noDouble_take _ _ h1

theorem mem_stripWS {c : Char} {l : List Char} (h : c ∈ stripWS l) : c ∈ l := by
  unfold stripWS at h
  rw [List.mem_reverse] at h
  have h2 := mem_dropWhile_pred h
  rw [List.mem_reverse] at h2
  exact mem_dropWhile_pred h2

theorem splitext_spec (p : List Char) :
    (splitext p).1 ++ (splitext p).2 = p ∧
    ((splitext p).2 = [] ∨ (splitext p).2.head? = some '.') := by
  unfold splitext
  split
  next => exact ⟨by simp, Or.inl rfl⟩
  next c rest' hd =>
    split
    next hall => exact ⟨by simp, Or.inl rfl⟩
    next hall =>
      have hc : (!(c == '.')) = false := dropWhile_head_false hd
      have hc' : c = '.' := by simpa using hc
      refine ⟨?_, Or.inr (by simp [hc'])⟩
      have h0 : (p.reverse).takeWhile (fun x => !(x == '.')) ++ (c :: rest') = p.reverse := by
        rw [← hd]
        exact List.takeWhile_append_dropWhile (fun x => !(x == '.')) p.reverse
      have h1 := congrArg List.reverse h0
      rw [List.reverse_append, List.reverse_reverse, List.reverse_cons] at h1
      show rest'.reverse ++ (c :: ((p.reverse).takeWhile (fun x => !(x == '.'))).reverse) = p
      rw [← List.singleton_append, ← List.append_assoc]
      exact h1

/-- A prefix of length at most `n` survives `take n`. -/
theorem IsPre_take {a l : List Char} {n : Nat} (h : a <+: l) (hn : a.length ≤ n) :
    a <+: l.take n := by
  obtain ⟨u, rfl⟩ := h
  rw [List.take_append_eq_append_take, List.take_of_length_le hn]
  exact ⟨u.take (n - a.length), rfl⟩

/-- If `a` is a dot-free, whitespace-free prefix of `p` then it is a
prefix of the root of `splitext p`. -/
theorem IsPre_splitext_root {a p : List Char} (h : a <+: p)
    (hdot : ∀ c ∈ a, c ≠ '.') : a <+: (splitext p).1 := by
  rcases splitext_spec p with ⟨happ, hext⟩
  rcases hext with hnil | hhead
  · rw [hnil, List.append_nil] at happ
    rw [happ]
    exact h
  · have hroot : (splitext p).1 <+: p := ⟨(splitext p).2, happ⟩
    by_cases hle : a.length ≤ (splitext p).1.length
    · exact List.prefix_of_prefix_length_le h hroot hle
    · exfalso
      have hlt : (splitext p).1.length < a.length := Nat.lt_of_not_le hle
      have hra : (splitext p).1 <+: a :=
        List.prefix_of_prefix_length_le hroot h (Nat.le_of_lt hlt)
      obtain ⟨s, hs⟩ := hra
      have hsne : s ≠ [] := by
        intro hempty
        rw [hempty, List.append_nil] at hs
        rw [hs] at hlt
        exact Nat.lt_irrefl _ hlt
      obtain ⟨w, hw⟩ := h
      rw [← hs, List.append_assoc] at hw
      have hsw : s ++ w = (splitext p).2 := List.append_cancel_left (hw.trans happ.symm)
      cases s with
      | nil => exact hsne rfl
      | cons c0 s0 =>
        have hc0 : c0 = '.' := by
          have hh : (splitext p).2.head? = some c0 := by
            rw [← hsw, List.cons_append, List.head?_cons]
          rw [hh] at hhead
          exact Option.some_inj.mp hhead
        have : c0 ∈ a := by
          rw [← hs]
          exact List.mem_append_right _ (List.mem_cons_self c0 s0)
        exact hdot c0 this hc0

theorem collapseAux_append_nonws (a x : List Char)
    (ha : ∀ c ∈ a, pyWS c = false) :
    collapseAux false (a ++ x) = a ++ collapseAux false x := by
  induction a with
  | nil => rfl
  | cons c a ih =>
    have hc : pyWS c = false := ha c (List.mem_cons_self c a)
    rw [List.cons_append, collapseAux, if_neg (by simp [hc])]
    rw [ih (fun d hd => ha d (List.mem_cons_of_mem c hd)), List.cons_append]

theorem dropWhile_cons_nonws {c : Char} {l : List Char} (hc : pyWS c = false) :
    (c :: l).dropWhile pyWS = c :: l := by
  rw [List.dropWhile_cons, if_neg (by simp [hc])]

theorem IsPre_rstrip {a x : List Char} (ha : ∀ c ∈ a, pyWS c = false) :
    a <+: ((a ++ x).reverse.dropWhile pyWS).reverse := by
  have hd := rstrip_decomp (a ++ x)
  have ht := rstrip_trailing_ws (a ++ x)
  have hpa : a <+: a ++ x := ⟨x, rfl⟩
  have hpr : ((a ++ x).reverse.dropWhile pyWS).reverse <+: a ++ x :=
    ⟨((a ++ x).reverse.takeWhile pyWS).reverse, hd.symm⟩
  by_cases hle : a.length ≤ (((a ++ x).reverse.dropWhile pyWS).reverse).length
  · exact List.prefix_of_prefix_length_le hpa hpr hle
  · exfalso
    have hra : ((a ++ x).reverse.dropWhile pyWS).reverse <+: a :=
      List.prefix_of_prefix_length_le hpr hpa (Nat.le_of_lt (Nat.lt_of_not_le hle))
    obtain ⟨s, hs⟩ := hra
    have hsne : s ≠ [] := by
      intro hemp
      rw [hemp, List.append_nil] at hs
      rw [hs] at hle
      exact hle (Nat.le_refl _)
    have h2 : ((a ++ x).reverse.dropWhile pyWS).reverse ++ (s ++ x) =
        ((a ++ x).reverse.dropWhile pyWS).reverse ++ ((a ++ x).reverse.takeWhile pyWS).reverse := by
      rw [← List.append_assoc, hs]
      exact hd
    have h3 : s ++ x = ((a ++ x).reverse.takeWhile pyWS).reverse := List.append_cancel_left h2
    cases s with
    | nil => exact hsne rfl
    | cons c0 s0 =>
      have hc0t : pyWS c0 = true := by
        refine ht c0 ?_
        rw [← h3]
        exact List.mem_append_left _ (List.mem_cons_self c0 s0)
      have hc0a : c0 ∈ a := by
        rw [← hs]
        exact List.mem_append_right _ (List.mem_cons_self c0 s0)
      rw [ha c0 hc0a] at hc0t
      exact Bool.false_ne_true hc0t

theorem IsPre_cleanedName (name : String) (tno : Nat)
    (hchars : ∀ c ∈ (toString tno).data ++ ['_'],
      pyWS c = false ∧ illegalChars.contains c = false ∧ c ≠ '.') :
    ((toString tno).data ++ ['_']) <+: cleanedName name tno := by
  have hn1 : (toString tno).data ++ '_' :: name.data =
      ((toString tno).data ++ ['_']) ++ name.data := by
    rw [List.append_assoc, List.singleton_append]
  unfold cleanedName
  rw [hn1]
  have hri : removeIllegal (((toString tno).data ++ ['_']) ++ name.data)
      = ((toString tno).data ++ ['_']) ++ removeIllegal name.data := by
    unfold removeIllegal
    rw [List.filter_append]
    congr 1
    apply List.filter_eq_self.mpr
    intro c hc
    simpa using (hchars c hc).2.1
  rw [hri]
  have hcw : collapseWS (((toString tno).data ++ ['_']) ++ removeIllegal name.data)
      = ((toString tno).data ++ ['_']) ++ collapseWS (removeIllegal name.data) := by
    unfold collapseWS
    exact collapseAux_append_nonws _ _ (fun c hc => (hchars c hc).1)
  rw [hcw]
  unfold stripWS
  have hfront : ((((toString tno).data ++ ['_']) ++ collapseWS (removeIllegal name.data)).dropWhile pyWS)
      = (((toString tno).data ++ ['_']) ++ collapseWS (removeIllegal name.data)) := by
    cases hdig : (toString tno).data with
    | nil =>
      rw [List.nil_append, List.singleton_append]
      exact dropWhile_cons_nonws (by decide)
    | cons d ds =>
      have hd : pyWS d = false := by
        refine (hchars d ?_).1
        rw [hdig]
        exact List.mem_append_left _ (List.mem_cons_self d ds)
      rw [List.cons_append, List.cons_append]
      exact dropWhile_cons_nonws hd
  rw [hfront]
  exact IsPre_rstrip (fun c hc => (hchars c hc).1)

theorem mem_cleanedName_illegal {c : Char} {name : String} {tno : Nat}
    (h : c ∈ cleanedName name tno) : illegalChars.contains c = false := by
  unfold cleanedName at h
  have h1 := mem_stripWS h
  rcases mem_collapseAux _ false h1 with rfl | h2
  · decide
  · have := (List.mem_filter.mp h2).2
    simpa using this

theorem mem_cleanedName_ws {c : Char} {name : String} {tno : Nat}
    (h : c ∈ cleanedName name tno) (hws : pyWS c = true) : c = ' ' := by
  unfold cleanedName at h
  exact ws_collapseAux _ false (mem_stripWS h) hws

theorem noDouble_cleanedName (name : String) (tno : Nat) :
    noDouble (cleanedName name tno) = true := by
  unfold cleanedName
  exact noDouble_stripWS _ (noDouble_collapseAux _ false)

theorem noDouble_append_left {a b l : List Char} (h : a ++ b = l)
    (hnd : noDouble l = true) : noDouble a = true := by
  subst h
  have h1 : (a ++ b).take a.length = a := List.take_left' rfl
  rw [← h1]
  exact noDouble_take _ _ hnd

theorem noDouble_append_right {a b l : List Char} (h : a ++ b = l)
    (hnd : noDouble l = true) : noDouble b = true := by
  subst h
  have h1 : (a ++ b).drop a.length = b := List.drop_left' rfl
  rw [← h1]
  exact noDouble_drop _ _ hnd

theorem mem_cleanedName_of_cap {c : Char} {name : String} {tno : Nat}
    (h : c ∈ (splitext (cleanedName name tno)).1.take 140 ++
          (splitext (cleanedName name tno)).2.take 10) :
    c ∈ cleanedName name tno := by
  rw [← (splitext_spec (cleanedName name tno)).1]
  rcases List.mem_append.mp h with h | h
  · exact List.mem_append_left _ ((List.take_sublist _ _).subset h)
  · exact List.mem_append_right _ ((List.take_sublist _ _).subset h)

/-- Claim C9 (amended): the sanitized attachment name is capped at 150
characters, starts with the ticket number and an underscore, contains no
character from the illegal set, has all whitespace collapsed to single
spaces, and — when the cleaned name is cut — keeps a trailing extension
of at most 10 characters intact; the file path places it under a folder
named after the ticket number.  (The hypotheses state that the decimal
rendering of the ticket number consists of ordinary characters — no
whitespace, no illegal character, no dot — and fits in the 140-character
root budget.) -/
theorem sanitize_filename_spec (d name : String) (tno : Nat)
    (hchars : ∀ c ∈ (toString tno).data ++ ['_'],
      pyWS c = false ∧ illegalChars.contains c = false ∧ c ≠ '.')
    (hlen : ((toString tno).data ++ ['_']).length ≤ 140) :
    (sanitize_filename name tno).length ≤ 150 ∧
    ((toString tno).data ++ ['_']) <+: (sanitize_filename name tno).data ∧
    (∀ c ∈ (sanitize_filename name tno).data, illegalChars.contains c = false) ∧
    (∀ c ∈ (sanitize_filename name tno).data, pyWS c = true → c = ' ') ∧
    noDouble (sanitize_filename name tno).data = true ∧
    ((splitext (cleanedName name tno)).2.length ≤ 10 →
      ∃ pre, (sanitize_filename name tno).data =
        pre ++ (splitext (cleanedName name tno)).2) ∧
    save_attachment_path d name tno =
      d ++ "/" ++ toString tno ++ "/" ++ sanitize_filename name tno := by
  have hpre3 := IsPre_cleanedName name tno hchars
  have happ := (splitext_spec (cleanedName name tno)).1
  have hext := (splitext_spec (cleanedName name tno)).2
  have hnd3 := noDouble_cleanedName name tno
  by_cases hcap : 150 < (cleanedName name tno).length
  · have hdata : (sanitize_filename name tno).data =
        (splitext (cleanedName name tno)).1.take 140 ++
        (splitext (cleanedName name tno)).2.take 10 := by
      unfold sanitize_filename
      rw [if_pos hcap]
    have hroot_nd : noDouble (splitext (cleanedName name tno)).1 = true :=
      noDouble_append_left happ hnd3
    have hext_nd : noDouble (splitext (cleanedName name tno)).2 = true :=
      noDouble_append_right happ hnd3
    refine ⟨?_, ?_, ?_, ?_, ?_, ?_, rfl⟩
    · show (sanitize_filename name tno).data.length ≤ 150
      rw [hdata, List.length_append, List.length_take, List.length_take]
      have h1 : min 140 (splitext (cleanedName name tno)).1.length ≤ 140 := Nat.min_le_left _ _
      have h2 : min 10 (splitext (cleanedName name tno)).2.length ≤ 10 := Nat.min_le_left _ _
      omega
    · rw [hdata]
      have hroot : ((toString tno).data ++ ['_']) <+: (splitext (cleanedName name tno)).1 :=
        IsPre_splitext_root hpre3 (fun c hc => (hchars c hc).2.2)
      obtain ⟨u, hu⟩ := IsPre_take hroot hlen
      exact ⟨u ++ (splitext (cleanedName name tno)).2.take 10, by rw [← List.append_assoc, hu]⟩
    · intro c hc
      rw [hdata] at hc
      exact mem_cleanedName_illegal (mem_cleanedName_of_cap hc)
    · intro c hc hws
      rw [hdata] at hc
      exact mem_cleanedName_ws (mem_cleanedName_of_cap hc) hws
    · rw [hdata]
      refine noDouble_append _ _ (noDouble_take _ _ hroot_nd) (noDouble_take _ _ hext_nd) ?_
      intro x y hx hy hxy
      rcases hext with hnil | hhead
      · rw [hnil] at hy
        simp at hy
      · cases hny : (splitext (cleanedName name tno)).2 with
        | nil => rw [hny] at hy; simp at hy
        | cons e0 es =>
          have h10 : (0 : Nat) < 10 := by decide
          rw [head?_take_pos h10, hhead] at hy
          have : y = '.' := (Option.some_inj.mp hy).symm
          rw [this] at hxy
          exact absurd hxy.2 (by decide)
    · intro hextlen
      rw [hdata, List.take_of_length_le hextlen]
      exact ⟨(splitext (cleanedName name tno)).1.take 140, rfl⟩
  · have hdata : (sanitize_filename name tno).data = cleanedName name tno := by
      unfold sanitize_filename
      rw [if_neg hcap]
    refine ⟨?_, ?_, ?_, ?_, ?_, ?_, rfl⟩
    · show (sanitize_filename name tno).data.length ≤ 150
      rw [hdata]
      exact Nat.le_of_not_lt hcap
    · rw [hdata]; exact hpre3
    · intro c hc
      rw [hdata] at hc
      exact mem_cleanedName_illegal hc
    · intro c hc hws
      rw [hdata] at hc
      exact mem_cleanedName_ws hc hws
    · rw [hdata]; exact hnd3
    · intro hextlen
      rw [hdata]
      exact ⟨(splitext (cleanedName name tno)).1, happ.symm⟩

theorem sanitize_filename_spec_witness :
    (sanitize_filename "my report.pdf" 7).length ≤ 150 ∧
    ((toString 7).data ++ ['_']) <+: (sanitize_filename "my report.pdf" 7).data ∧
    (∀ c ∈ (sanitize_filename "my report.pdf" 7).data, illegalChars.contains c = false) ∧
    (∀ c ∈ (sanitize_filename "my report.pdf" 7).data, pyWS c = true → c = ' ') ∧
    noDouble (sanitize_filename "my report.pdf" 7).data = true ∧
    ((splitext (cleanedName "my report.pdf" 7)).2.length ≤ 10 →
      ∃ pre, (sanitize_filename "my report.pdf" 7).data =
        pre ++ (splitext (cleanedName "my report.pdf" 7)).2) ∧
    save_attachment_path "attachments" "my report.pdf" 7 =
      "attachments" ++ "/" ++ toString 7 ++ "/" ++ sanitize_filename "my report.pdf" 7 :=
  sanitize_filename_spec "attachments" "my report.pdf" 7 (by decide) (by decide)

/-- A name whose extension is 13 characters long, with a 150-character
stem. -/
def longAttachName : String :=
  String.mk (List.replicate 150 'a' ++ ('.' :: "abcdefghijkl".data))

set_option maxRecDepth 8000 in
set_option maxHeartbeats 1000000 in
/-- Claim C9 counterexample: for a long name with a 13-character
extension the sanitizer keeps only the first 10 characters of the
extension, so the trailing extension is *not* preserved: the cleaned
name's extension is `".abcdefghijkl"`, but the sanitized result does not
end with it. -/
theorem sanitize_extension_truncated :
    (splitext (cleanedName longAttachName 7)).2 = ('.' :: "abcdefghijkl".data) ∧
    ¬ (('.' :: "abcdefghijkl".data) <:+ (sanitize_filename longAttachName 7).data) ∧
    (sanitize_filename longAttachName 7).length ≤ 150 := by
  refine ⟨by decide, by decide, by decide⟩

end ETS
